import Mathlib

/-!
Verification development for the Transcript Segmentation & Annotation Engine
of `bda-to-word.py` (amazon-transcribe-output-word-document).

The Python source is shallowly embedded: Python floats are modelled as `ℚ`
(all timestamps and thresholds in the claims are exactly representable and
only compared/added/subtracted), Python in-place mutation of segment objects
is modelled by explicit state passing, and Python exceptions
(`IndexError` from out-of-range subscripts, `AttributeError` from attribute
access on `None`) are modelled by an `Except` error monad.
-/

/-- One entry of `segmentConfidence`: the dicts built by
`create_turn_by_turn_segments`
(`{"text": ..., "confidence": ..., "start_time": ..., "end_time": ...}`). -/
structure WordConf where
  text : String
  confidence : ℚ
  start_time : ℚ
  end_time : ℚ
deriving DecidableEq, Repr

/-- One guardrail entry of `segmentContentModeration`
(`{"category": ..., "confidence": ...}` from the BDA moderation output). -/
structure ModerationCategory where
  category : String
  confidence : ℚ
deriving DecidableEq, Repr

/-- The `SpeechSegment` class: one speech segment, with the constructor's
default field values.  (`segmentAllSentiments`, an attribute added
dynamically by `generate_sentiment` and never read afterwards, is omitted.) -/
structure SpeechSegment where
  segmentStartTime : ℚ := 0
  segmentEndTime : ℚ := 0
  segmentSpeaker : String := ""
  segmentText : String := ""
  segmentLanguage : String := ""
  segmentConfidence : List WordConf := []
  segmentContentModeration : List ModerationCategory := []
  segmentSentimentScore : ℚ := -1
  segmentPositive : ℚ := 0
  segmentNegative : ℚ := 0
  segmentIsPositive : Bool := false
  segmentIsNegative : Bool := false
deriving DecidableEq, Repr

/-- Python run-time errors that the embedded code can raise:
`IndexError` (subscript out of range, including `list[-1]` on an empty list)
and `AttributeError` (attribute access on `None`). -/
inductive PyError where
  | indexError : PyError
  | attributeError : PyError
deriving DecidableEq, Repr

/-- `START_NEW_SEGMENT_DELAY = 2.0`: after this pause by one speaker the next
speech goes into a new segment. -/
def START_NEW_SEGMENT_DELAY : ℚ := 2.0

/-- The `else` branch of the loop body of `merge_speaker_segments`: absorb
`segment` into `lastSegment` (called `ls` here).  The Python code is

```
lastSegment.segmentEndTime = segment.segmentEndTime
lastSegment.segmentText += " " + segment.segmentText
segment.segmentConfidence[0]["text"] = " " + segment.segmentConfidence[0]["text"]
for wordConfidence in segment.segmentConfidence:
    lastSegment.segmentConfidence.append(wordConfidence)
```

`segment.segmentConfidence[0]` raises `IndexError` when the absorbed segment
carries no tokens. -/
def absorbSegment (ls segment : SpeechSegment) : Except PyError SpeechSegment :=
  match segment.segmentConfidence with
  | [] => .error .indexError
  | w :: ws =>
    .ok { ls with
      segmentEndTime := segment.segmentEndTime
      segmentText := ls.segmentText ++ " " ++ segment.segmentText
      segmentConfidence := ls.segmentConfidence ++ ({ w with text := " " ++ w.text } :: ws) }

/-- The loop of `merge_speaker_segments`, with the mutable Python state made
explicit: `done` holds the finalized prefix of `outputSegmentList`, `last`
is `lastSegment` (also the final element of `outputSegmentList` when present,
since the list holds a reference to the same object), and `lastSpeaker`,
`lastLanguage` are the corresponding Python variables.  The first disjunct of
the Python condition is evaluated before `lastSegment.segmentEndTime`, so
only when `segment.segmentSpeaker == lastSpeaker` can the `None` access
raise `AttributeError` (initial state only). -/
def merge_loop : List SpeechSegment → List SpeechSegment → Option SpeechSegment →
    String → String → Except PyError (List SpeechSegment)
  | [], done, last, _, _ => .ok (done ++ last.toList)
  | segment :: rest, done, last, lastSpeaker, lastLanguage =>
    if segment.segmentSpeaker ≠ lastSpeaker then
      merge_loop rest (done ++ last.toList) (some segment)
        segment.segmentSpeaker segment.segmentLanguage
    else
      match last with
      | none => .error .attributeError
      | some ls =>
        if segment.segmentStartTime - ls.segmentEndTime ≥ START_NEW_SEGMENT_DELAY ∨
            segment.segmentLanguage ≠ lastLanguage ∨
            segment.segmentContentModeration ≠ [] then
          merge_loop rest (done ++ [ls]) (some segment)
            segment.segmentSpeaker segment.segmentLanguage
        else
          match absorbSegment ls segment with
          | .error e => .error e
          | .ok ls2 => merge_loop rest done (some ls2) lastSpeaker lastLanguage

/-- `merge_speaker_segments`: merges together consecutive speaker segments
unless there is a speaker change, the gap between segments reaches
`START_NEW_SEGMENT_DELAY`, the language changes, or the segment carries
content-moderation entries.  Initial state: empty output,
`lastSpeaker = ""`, `lastLanguage = ""`, `lastSegment = None`. -/
def merge_speaker_segments (input_segment_list : List SpeechSegment) :
    Except PyError (List SpeechSegment) :=
  merge_loop input_segment_list [] none "" ""

/-- `MIN_SENTIMENT_LENGTH = 16`. -/
def MIN_SENTIMENT_LENGTH : Nat := 16

/-- `MIN_SENTIMENT_NEGATIVE = 0.4`. -/
def MIN_SENTIMENT_NEGATIVE : ℚ := 0.4

/-- `MIN_SENTIMENT_POSITIVE = 0.6`. -/
def MIN_SENTIMENT_POSITIVE : ℚ := 0.6

/-- `SENTIMENT_LANGUAGES`: language codes known to Amazon Comprehend. -/
def SENTIMENT_LANGUAGES : List String :=
  ["en", "es", "fr", "de", "it", "pt", "ar", "hi", "ja", "ko", "zh-TW", "zh"]

/-- The classification part of the loop body of `generate_sentiment`, given
the `Positive`/`Negative` scores returned by `detect_sentiment`:

```
if negativeBase >= MIN_SENTIMENT_NEGATIVE:
    nextSegment.segmentIsNegative = True
    nextSegment.segmentSentimentScore = negativeBase
elif positiveBase >= MIN_SENTIMENT_POSITIVE:
    nextSegment.segmentIsPositive = True
    nextSegment.segmentSentimentScore = positiveBase
nextSegment.segmentPositive = positiveBase
nextSegment.segmentNegative = negativeBase
```
-/
def classifySegmentSentiment (seg : SpeechSegment) (positiveBase negativeBase : ℚ) :
    SpeechSegment :=
  { (if negativeBase ≥ MIN_SENTIMENT_NEGATIVE then
      { seg with segmentIsNegative := true, segmentSentimentScore := negativeBase }
    else if positiveBase ≥ MIN_SENTIMENT_POSITIVE then
      { seg with segmentIsPositive := true, segmentSentimentScore := positiveBase }
    else seg) with
    segmentPositive := positiveBase, segmentNegative := negativeBase }

/-- The body of the `for nextSegment in segment_list` loop of
`generate_sentiment`.  The external Amazon Comprehend call
`client.detect_sentiment(Text=..., LanguageCode=...)` is injected as the
`score` capability returning the `(Positive, Negative)` score pair. -/
def sentimentStep (score : String → String → ℚ × ℚ) (seg : SpeechSegment) :
    SpeechSegment :=
  if seg.segmentLanguage ∈ SENTIMENT_LANGUAGES then
    if seg.segmentText.length ≥ MIN_SENTIMENT_LENGTH then
      classifySegmentSentiment seg (score seg.segmentText seg.segmentLanguage).1
        (score seg.segmentText seg.segmentLanguage).2
    else seg
  else seg

/-- `generate_sentiment`: generates sentiment per speech segment.  The Python
code mutates the list elements in place; here the updated list is returned. -/
def generate_sentiment (score : String → String → ℚ × ℚ)
    (segment_list : List SpeechSegment) : List SpeechSegment :=
  segment_list.map (sentimentStep score)

/-- One element of `data["audio_items"]`: either a timed word item
(keys `start_timestamp_millis` / `end_timestamp_millis` present, modelled by
`timing = some (start, end)`) or an untimed punctuation item
(`timing = none`). -/
structure AudioItem where
  content : String
  timing : Option (ℚ × ℚ)
deriving DecidableEq, Repr

/-- One element of `data["audio_segments"]`: a BDA conversation turn.
`speaker_label` stands for `turn["speaker"]["speaker_label"]`. -/
structure Turn where
  start_timestamp_millis : ℚ
  end_timestamp_millis : ℚ
  speaker_label : String
  text : String
  language : String
  audio_item_indices : List Nat
deriving DecidableEq, Repr

/-- The parts of the BDA JSON document consumed by
`create_turn_by_turn_segments`: `data["audio_segments"]`,
`data["audio_items"]`, and the per-turn
`data["audio"]["content_moderation"][index]["moderation_categories"]`
lists. -/
structure BdaData where
  audio_segments : List Turn
  audio_items : List AudioItem
  content_moderation : List (List ModerationCategory)
deriving DecidableEq, Repr

/-- The CLI arguments consulted by `create_turn_by_turn_segments`:
`--guardrailCheck on|off` and `--guardrailLimit`. -/
structure CliArgs where
  guardrailCheck : Bool
  guardrailLimit : ℚ
deriving DecidableEq, Repr

/-- The `for word_ptr in turn["audio_item_indices"]` loop of
`create_turn_by_turn_segments`, with the mutable `confidenceList` and
`skipLeadingSpace` state made explicit.  An out-of-range `word_ptr` raises
`IndexError`; a punctuation item updates `segmentConfidence[-1]` in place,
which raises `IndexError` when the list is still empty. -/
def processTurnItems (data : BdaData) :
    List Nat → List WordConf → Bool → Except PyError (List WordConf)
  | [], confidenceList, _ => .ok confidenceList
  | word_ptr :: rest, confidenceList, skipLeadingSpace =>
    match data.audio_items[word_ptr]? with
    | none => .error .indexError
    | some word =>
      match word.timing with
      | some (s, e) =>
        let wordToAdd := if skipLeadingSpace then word.content else " " ++ word.content
        processTurnItems data rest
          (confidenceList ++
            [{ text := wordToAdd, confidence := 1.0, start_time := s / 1000, end_time := e / 1000 }])
          false
      | none =>
        match confidenceList.getLast? with
        | none => .error .indexError
        | some last_word =>
          processTurnItems data rest
            (confidenceList.dropLast ++ [{ last_word with text := last_word.text ++ word.content }])
            skipLeadingSpace

/-- Python `str.lower()`, modelled character-wise over the string's data
(the engine only applies it to ASCII language tags).  Defined by a plain
list map so that concrete evaluation reduces. -/
def pyLower (s : String) : String := String.mk (s.data.map Char.toLower)

/-- The guardrail-extraction step of `create_turn_by_turn_segments`: when
`--guardrailCheck on`, keep the moderation categories of
`content_moderation[index]` whose confidence reaches `--guardrailLimit`
(an out-of-range `index` raises `IndexError`); otherwise no moderation
entries are attached. -/
def buildModeration (cli_args : CliArgs) (data : BdaData) (index : Nat) :
    Except PyError (List ModerationCategory) :=
  if cli_args.guardrailCheck then
    match data.content_moderation[index]? with
    | none => .error .indexError
    | some cats => .ok (cats.filter (fun g => g.confidence ≥ cli_args.guardrailLimit))
  else .ok []

/-- One iteration of the `for turn in data["audio_segments"]` loop of
`create_turn_by_turn_segments`: build the `SpeechSegment` for one turn. -/
def buildTurnSegment (data : BdaData) (cli_args : CliArgs) (index : Nat) (turn : Turn) :
    Except PyError SpeechSegment :=
  match processTurnItems data turn.audio_item_indices [] true with
  | .error e => .error e
  | .ok confidenceList =>
    match buildModeration cli_args data index with
    | .error e => .error e
    | .ok moderation =>
      .ok { segmentStartTime := turn.start_timestamp_millis / 1000
            segmentEndTime := turn.end_timestamp_millis / 1000
            segmentSpeaker := turn.speaker_label
            segmentText := turn.text
            segmentLanguage := pyLower turn.language
            segmentConfidence := confidenceList
            segmentContentModeration := moderation }

/-- The full `for turn in data["audio_segments"]` loop, building one
`SpeechSegment` per turn in input order (`index` is the running counter used
for the moderation lookup). -/
def buildSegments (data : BdaData) (cli_args : CliArgs) :
    Nat → List Turn → Except PyError (List SpeechSegment)
  | _, [] => .ok []
  | index, turn :: rest =>
    match buildTurnSegment data cli_args index turn with
    | .error e => .error e
    | .ok seg =>
      match buildSegments data cli_args (index + 1) rest with
      | .error e => .error e
      | .ok others => .ok (seg :: others)

/-- `create_turn_by_turn_segments`: creates the list of per-turn speech
segments from the BDA data, then merges consecutive same-speaker segments
with `merge_speaker_segments`. -/
def create_turn_by_turn_segments (data : BdaData) (cli_args : CliArgs) :
    Except PyError (List SpeechSegment) :=
  match buildSegments data cli_args 0 data.audio_segments with
  | .error e => .error e
  | .ok speechSegmentList => merge_speaker_segments speechSegmentList

/-- One element of the `timed_topics` list built in `write`:
`{"start_time": topic["start_timestamp_millis"], "index": topic["topic_index"]}`.
Timestamps are integer milliseconds. -/
structure TimedTopic where
  start_time : Int
  index : Int
deriving DecidableEq, Repr

/-- Python `int(...)` truncation toward zero, applied to a rational. -/
def pyInt (q : ℚ) : Int :=
  if q < 0 then ⌈q⌉ else ⌊q⌋

/-- CPython equality between an `int` and a `dict`: `int.__eq__` and the
reflected `dict.__eq__` both return `NotImplemented`, so `==` (and hence
list membership `in`) evaluates to `False` for such a pair.  This models the
comparison performed element-wise by `end_in_millis in timed_topics`, where
`timed_topics` is a list of dicts. -/
def pyIntEqTopicDict (_n : Int) (_t : TimedTopic) : Bool := false

/-- One rendered transcript row from `write_transcribe_text`: the segment
written into the table row together with the `[Topic N]` markers emitted
before its text (each marker value is `topic["index"] + 1`).  All purely
visual concerns (cell styling, colours, sentiment icons, shading) are
rendering glue and carry no information about the loop's control flow. -/
structure TranscriptRow where
  segment : SpeechSegment
  markers : List Int
deriving DecidableEq, Repr

/-- The `while start_in_millis in topics_unmarked` loop of
`write_transcribe_text`: repeatedly find the first index of
`start_in_millis` in `topics_unmarked`, emit the marker
`timed_topics[idx]["index"] + 1`, and pop index `idx` from both lists.
An out-of-range `timed_topics[idx]` would raise `IndexError`. -/
def markTopicsAt (start_in_millis : Int) (timed_topics : List TimedTopic)
    (topics_unmarked : List Int) :
    Except PyError (List TimedTopic × List Int × List Int) :=
  if h : start_in_millis ∈ topics_unmarked then
    let idx := topics_unmarked.indexOf start_in_millis
    match timed_topics[idx]? with
    | none => .error .indexError
    | some t =>
      match markTopicsAt start_in_millis (timed_topics.eraseIdx idx)
          (topics_unmarked.eraseIdx idx) with
      | .error e => .error e
      | .ok (topics2, unmarked2, markers2) =>
        .ok (topics2, unmarked2, (t.index + 1) :: markers2)
  else
    .ok (timed_topics, topics_unmarked, [])
termination_by topics_unmarked.length
decreasing_by
  have hlt : topics_unmarked.indexOf start_in_millis < topics_unmarked.length :=
    List.indexOf_lt_length.mpr h
  simp only [List.length_eraseIdx, if_pos hlt]
  omega

/-- The `for segment in speech_segments` loop of `write_transcribe_text`:
write a row per segment, emit topic markers whose timestamp equals the
segment start (in truncated milliseconds), and `break` after a row whose
`end_in_millis` is found by `in` inside the (remaining) `timed_topics` list
of dicts — a membership test between an `int` and dicts
(see `pyIntEqTopicDict`). -/
def writeTranscribeLoop :
    List SpeechSegment → List TimedTopic → List Int →
    Except PyError (List TranscriptRow)
  | [], _, _ => .ok []
  | segment :: rest, timed_topics, topics_unmarked =>
    match markTopicsAt (pyInt (segment.segmentStartTime * 1000))
        timed_topics topics_unmarked with
    | .error e => .error e
    | .ok (topics2, unmarked2, markers) =>
      if topics2.any (pyIntEqTopicDict (pyInt (segment.segmentEndTime * 1000))) then
        .ok [{ segment := segment, markers := markers }]
      else
        match writeTranscribeLoop rest topics2 unmarked2 with
        | .error e => .error e
        | .ok rows => .ok ({ segment := segment, markers := markers } :: rows)

/-- `write_transcribe_text`: writes out each line of the transcript.  Only
the control flow and the emitted rows/markers are modelled; `topics_unmarked`
is initialised to `[d["start_time"] for d in timed_topics]` (the code guards
this with `timed_topics != []`, but the comprehension of an empty list is
the initial `[]` anyway). -/
def write_transcribe_text (speech_segments : List SpeechSegment)
    (timed_topics : List TimedTopic) : Except PyError (List TranscriptRow) :=
  writeTranscribeLoop speech_segments timed_topics
    (timed_topics.map (fun d => d.start_time))

/-- The word-assembly loop re-expressed over the already-resolved
`AudioItem` list (rather than over `audio_item_indices` with a lookup at
each step); bridged to `processTurnItems` by `processTurnItems_eq_list`. -/
def processItemsList :
    List AudioItem → List WordConf → Bool → Except PyError (List WordConf)
  | [], confidenceList, _ => .ok confidenceList
  | word :: rest, confidenceList, skipLeadingSpace =>
    match word.timing with
    | some (s, e) =>
      let wordToAdd := if skipLeadingSpace then word.content else " " ++ word.content
      processItemsList rest
        (confidenceList ++
          [{ text := wordToAdd, confidence := 1.0, start_time := s / 1000, end_time := e / 1000 }])
        false
    | none =>
      match confidenceList.getLast? with
      | none => .error .indexError
      | some last_word =>
        processItemsList rest
          (confidenceList.dropLast ++ [{ last_word with text := last_word.text ++ word.content }])
          skipLeadingSpace

/-- An untimed (punctuation) item: no `start_timestamp_millis` key. -/
def isUntimed (w : AudioItem) : Bool := w.timing.isNone

/-- Plain concatenation of a list of strings (no separator). -/
def concatTexts : List String → String
  | [] => ""
  | s :: rest => s ++ concatTexts rest

/-- The concatenation of a segment's token texts, in order (the token texts
already embed the leading-space policy). -/
def concatTok (seg : SpeechSegment) : String :=
  concatTexts (seg.segmentConfidence.map (fun w => w.text))

/-- Join a list of strings with a single space between consecutive entries. -/
def joinSpace : List String → String
  | [] => ""
  | [s] => s
  | s :: rest => s ++ " " ++ joinSpace rest

/-- Modelled from the spec (§4.1 Word Assembler), as the reference
description of the per-turn token sequence: the first timed item emits its
text verbatim, every subsequent timed item is prefixed with a single space,
and each untimed item is concatenated (no space, no timing, no new token)
onto the most recently emitted token.  Stated by grouping each timed item
with the run of untimed items that follows it.  (The `none` head case is
unreachable when the item list begins with a timed item, which is the
precondition of the claims using this definition.) -/
def assemblerSpec (isFirst : Bool) (items : List AudioItem) : List WordConf :=
  match items with
  | [] => []
  | w :: rest =>
    match w.timing with
    | none => assemblerSpec isFirst rest
    | some (s, e) =>
      { text := (if isFirst then "" else " ") ++ w.content ++
          concatTexts ((rest.takeWhile isUntimed).map (fun i => i.content))
        confidence := 1.0
        start_time := s / 1000
        end_time := e / 1000 } ::
        assemblerSpec false (rest.dropWhile isUntimed)
termination_by items.length
decreasing_by
  · simp
  · have h2 : (rest.dropWhile isUntimed).Sublist rest := List.dropWhile_sublist _
    have := h2.length_le
    simp only [List.length_cons]
    omega

/-- The merge break condition between two adjacent segments, read off the
guard of `merge_speaker_segments`: a new output entry starts exactly when
the speaker changes, the start-time gap from the previous end time reaches
`START_NEW_SEGMENT_DELAY`, the language changes, or the segment carries
moderation entries. -/
def breakCond (prev cur : SpeechSegment) : Prop :=
  cur.segmentSpeaker ≠ prev.segmentSpeaker ∨
    cur.segmentStartTime - prev.segmentEndTime ≥ START_NEW_SEGMENT_DELAY ∨
    cur.segmentLanguage ≠ prev.segmentLanguage ∨
    cur.segmentContentModeration ≠ []

instance (prev cur : SpeechSegment) : Decidable (breakCond prev cur) := by
  unfold breakCond; infer_instance

/-- The token-list update performed on absorption: the absorbed segment's
first token gets a single leading space prepended to its text, and the
token sequence is otherwise kept in order. -/
def spacedTokens : List WordConf → List WordConf
  | [] => []
  | w :: ws => { w with text := " " ++ w.text } :: ws

/-- Decidable form of the input-consistency premise of the token-preservation
property: every turn whose word assembly succeeds carries a `text` field
equal to the concatenation of its assembled token texts. -/
def turnTextConsistent (data : BdaData) : Bool :=
  data.audio_segments.all (fun turn =>
    match processTurnItems data turn.audio_item_indices [] true with
    | .ok toks => turn.text == concatTexts (toks.map (fun w => w.text))
    | .error _ => true)


/-! ### Concrete fixtures used by the closed theorems and witnesses -/

/-- A one-word token with full confidence, as built by the word assembler. -/
def mkTok (t : String) (s e : ℚ) : WordConf :=
  { text := t, confidence := 1, start_time := s, end_time := e }

/-- A segment preceding the flagged one: same speaker and language. -/
def segPrev : SpeechSegment :=
  { segmentStartTime := 0, segmentEndTime := 0.8, segmentSpeaker := "spk_0",
    segmentText := "pre", segmentLanguage := "en",
    segmentConfidence := [mkTok "pre" 0 0.8] }

/-- A segment carrying a content-moderation (guardrail) entry. -/
def segFlagged : SpeechSegment :=
  { segmentStartTime := 1, segmentEndTime := 2, segmentSpeaker := "spk_0",
    segmentText := "bad", segmentLanguage := "en",
    segmentConfidence := [mkTok "bad" 1 2],
    segmentContentModeration := [{ category := "HATE", confidence := 0.9 }] }

/-- An unflagged segment following `segFlagged`: same speaker, same language,
gap `0.5 s` below the threshold. -/
def segFollow : SpeechSegment :=
  { segmentStartTime := 2.5, segmentEndTime := 3, segmentSpeaker := "spk_0",
    segmentText := "ok", segmentLanguage := "en",
    segmentConfidence := [mkTok "ok" 2.5 3] }

/-- A plain segment for speaker `alice`. -/
def segAlice : SpeechSegment :=
  { segmentStartTime := 0, segmentEndTime := 1, segmentSpeaker := "alice",
    segmentText := "hi", segmentLanguage := "en",
    segmentConfidence := [mkTok "hi" 0 1] }

/-- A continuation segment for `alice` that satisfies all four merge
conditions but carries no tokens (`segmentConfidence = []`). -/
def segAliceEmpty : SpeechSegment :=
  { segmentStartTime := 1.5, segmentEndTime := 2, segmentSpeaker := "alice",
    segmentText := "", segmentLanguage := "en", segmentConfidence := [] }

/-- A plain segment for speaker `bob`. -/
def segBob : SpeechSegment :=
  { segmentStartTime := 0, segmentEndTime := 1, segmentSpeaker := "bob",
    segmentText := "yes", segmentLanguage := "en",
    segmentConfidence := [mkTok "yes" 0 1] }

/-- A continuation segment for `bob` with an empty token list. -/
def segBobEmpty : SpeechSegment :=
  { segmentStartTime := 1, segmentEndTime := 2, segmentSpeaker := "bob",
    segmentText := "", segmentLanguage := "en", segmentConfidence := [] }

/-- A segment whose speaker label is the empty string. -/
def segNoSpeaker : SpeechSegment :=
  { segmentStartTime := 0, segmentEndTime := 1, segmentSpeaker := "",
    segmentText := "hello", segmentLanguage := "en",
    segmentConfidence := [mkTok "hello" 0 1] }

/-- Scenario turn A: speaker `spk_0`, language `en`, ending at `10.0 s`. -/
def segScenA : SpeechSegment :=
  { segmentStartTime := 8, segmentEndTime := 10, segmentSpeaker := "spk_0",
    segmentText := "alpha", segmentLanguage := "en",
    segmentConfidence := [mkTok "alpha" 8 10] }

/-- Scenario turn B starting at `10.5 s` (gap `0.5 s`). -/
def segScenB05 : SpeechSegment :=
  { segmentStartTime := 10.5, segmentEndTime := 11.5, segmentSpeaker := "spk_0",
    segmentText := "beta", segmentLanguage := "en",
    segmentConfidence := [mkTok "beta" 10.5 11.5] }

/-- Scenario turn B starting at `13.0 s` (gap `3.0 s`). -/
def segScenB30 : SpeechSegment :=
  { segmentStartTime := 13, segmentEndTime := 14, segmentSpeaker := "spk_0",
    segmentText := "beta", segmentLanguage := "en",
    segmentConfidence := [mkTok "beta" 13 14] }

/-- The merge of `segScenA` and `segScenB05`. -/
def segScenMerged : SpeechSegment :=
  { segmentStartTime := 8, segmentEndTime := 11.5, segmentSpeaker := "spk_0",
    segmentText := "alpha beta", segmentLanguage := "en",
    segmentConfidence := [mkTok "alpha" 8 10, mkTok " beta" 10.5 11.5] }

/-- The single segment produced by the full pipeline on `consistData`. -/
def consistMerged : SpeechSegment :=
  { segmentStartTime := 0, segmentEndTime := 2, segmentSpeaker := "spk_0",
    segmentText := "Hello there friend", segmentLanguage := "en",
    segmentConfidence := [mkTok "Hello" 0 0.4, mkTok " there" 0.5 1,
      mkTok " friend" 1.5 2] }

/-- A segment ending exactly at `5.0 s` (`5000 ms`). -/
def segEnd5 : SpeechSegment :=
  { segmentStartTime := 0, segmentEndTime := 5, segmentSpeaker := "spk_0",
    segmentText := "a", segmentLanguage := "en",
    segmentConfidence := [mkTok "a" 0 5] }

/-- A segment after `segEnd5`, from another speaker. -/
def segAfter5 : SpeechSegment :=
  { segmentStartTime := 6, segmentEndTime := 7, segmentSpeaker := "spk_1",
    segmentText := "b", segmentLanguage := "en",
    segmentConfidence := [mkTok "b" 6 7] }

/-- A topic event at `5000 ms` (the exact end time of `segEnd5`). -/
def topicAt5000 : TimedTopic := { start_time := 5000, index := 0 }

/-- A fresh segment eligible for sentiment scoring: supported language and
text of length `26 ≥ MIN_SENTIMENT_LENGTH`. -/
def eligSeg : SpeechSegment :=
  { segmentStartTime := 0, segmentEndTime := 2, segmentSpeaker := "spk_0",
    segmentText := "This is a sample sentence.", segmentLanguage := "en",
    segmentConfidence := [mkTok "This is a sample sentence." 0 2] }

/-- CLI arguments with guardrail checking disabled. -/
def cargsOff : CliArgs := { guardrailCheck := false, guardrailLimit := 0.2 }

/-- BDA data with one timed word `Hello` followed by an untimed `.`. -/
def helloData : BdaData :=
  { audio_segments := [],
    audio_items := [{ content := "Hello", timing := some (100, 500) },
      { content := ".", timing := none }],
    content_moderation := [] }

/-- BDA data whose single turn has a `text` field (`"xyz"`) different from
the concatenation of its assembled token texts (`"Hello"`). -/
def xyzData : BdaData :=
  { audio_segments :=
      [{ start_timestamp_millis := 0, end_timestamp_millis := 1000,
         speaker_label := "spk_0", text := "xyz", language := "en",
         audio_item_indices := [0] }],
    audio_items := [{ content := "Hello", timing := some (100, 500) }],
    content_moderation := [] }

/-- BDA data whose single turn begins with an untimed punctuation item. -/
def malformedData : BdaData :=
  { audio_segments :=
      [{ start_timestamp_millis := 0, end_timestamp_millis := 1000,
         speaker_label := "spk_0", text := ".", language := "en",
         audio_item_indices := [0] }],
    audio_items := [{ content := ".", timing := none }],
    content_moderation := [] }

/-- BDA data with two consistent turns of the same speaker, `0.5 s` apart:
assembly yields tokens whose concatenation equals each turn text, and the
merge collapses the two turns into one segment. -/
def consistData : BdaData :=
  { audio_segments :=
      [{ start_timestamp_millis := 0, end_timestamp_millis := 1000,
         speaker_label := "spk_0", text := "Hello there", language := "en",
         audio_item_indices := [0, 1] },
       { start_timestamp_millis := 1500, end_timestamp_millis := 2000,
         speaker_label := "spk_0", text := "friend", language := "en",
         audio_item_indices := [2] }],
    audio_items := [{ content := "Hello", timing := some (0, 400) },
      { content := "there", timing := some (500, 1000) },
      { content := "friend", timing := some (1500, 2000) }],
    content_moderation := [] }

/-! ### Helper lemmas about the merge loop -/

theorem merge_loop_prefix (rest : List SpeechSegment) :
    ∀ done last ls ll out, merge_loop rest done last ls ll = .ok out →
      ∃ suffix, out = done ++ suffix := by
  induction rest with
  | nil =>
    intro done last ls ll out h
    simp only [merge_loop, Except.ok.injEq] at h
    exact ⟨last.toList, h.symm⟩
  | cons segment rest ih =>
    intro done last ls ll out h
    simp only [merge_loop] at h
    split at h
    · obtain ⟨suffix, hs⟩ := ih _ _ _ _ _ h
      exact ⟨last.toList ++ suffix, by simp [hs]⟩
    · cases last with
      | none => simp at h
      | some ls0 =>
        simp only at h
        split at h
        · obtain ⟨suffix, hs⟩ := ih _ _ _ _ _ h
          exact ⟨ls0 :: suffix, by simp [hs]⟩
        · cases ha : absorbSegment ls0 segment with
          | error e => rw [ha] at h; simp at h
          | ok ls2 =>
            rw [ha] at h
            exact ih _ _ _ _ _ h

theorem absorbSegment_fields (ls segment ls2 : SpeechSegment)
    (h : absorbSegment ls segment = .ok ls2) :
    ls2.segmentStartTime = ls.segmentStartTime ∧
      ls2.segmentSpeaker = ls.segmentSpeaker ∧
      ls2.segmentLanguage = ls.segmentLanguage ∧
      ls2.segmentContentModeration = ls.segmentContentModeration := by
  unfold absorbSegment at h
  cases hc : segment.segmentConfidence with
  | nil => rw [hc] at h; simp at h
  | cons w ws =>
    rw [hc] at h
    simp only [Except.ok.injEq] at h
    subst h
    simp

theorem merge_loop_head (rest : List SpeechSegment) :
    ∀ l ls ll out, merge_loop rest [] (some l) ls ll = .ok out →
      ∃ t suffix, out = t :: suffix ∧
        t.segmentStartTime = l.segmentStartTime ∧
        t.segmentSpeaker = l.segmentSpeaker ∧
        t.segmentLanguage = l.segmentLanguage ∧
        t.segmentContentModeration = l.segmentContentModeration := by
  induction rest with
  | nil =>
    intro l ls ll out h
    simp only [merge_loop, Option.toList_some, List.nil_append, Except.ok.injEq] at h
    exact ⟨l, [], h.symm, rfl, rfl, rfl, rfl⟩
  | cons segment rest ih =>
    intro l ls ll out h
    simp only [merge_loop] at h
    split at h
    · obtain ⟨suffix, hs⟩ := merge_loop_prefix rest _ _ _ _ _ h
      exact ⟨l, suffix, by simpa using hs, rfl, rfl, rfl, rfl⟩
    · split at h
      · obtain ⟨suffix, hs⟩ := merge_loop_prefix rest _ _ _ _ _ h
        exact ⟨l, suffix, by simpa using hs, rfl, rfl, rfl, rfl⟩
      · cases ha : absorbSegment l segment with
        | error e => rw [ha] at h; simp at h
        | ok ls2 =>
          rw [ha] at h
          obtain ⟨t, suffix, hout, h1, h2, h3, h4⟩ := ih ls2 ls ll out h
          obtain ⟨g1, g2, g3, g4⟩ := absorbSegment_fields l segment ls2 ha
          exact ⟨t, suffix, hout, h1.trans g1, h2.trans g2, h3.trans g3, h4.trans g4⟩

theorem merge_flagged_new_entry (rest done : List SpeechSegment) (l segment : SpeechSegment)
    (ls ll : String) (hmod : segment.segmentContentModeration ≠ []) :
    merge_loop (segment :: rest) done (some l) ls ll =
      merge_loop rest (done ++ [l]) (some segment)
        segment.segmentSpeaker segment.segmentLanguage := by
  by_cases hspk : segment.segmentSpeaker ≠ ls
  · simp [merge_loop, hspk]
  · simp [merge_loop, hspk, hmod]

theorem merge_step_eq (rest done : List SpeechSegment) (l segment : SpeechSegment)
    (htok : segment.segmentConfidence ≠ []) :
    merge_loop (segment :: rest) done (some l) l.segmentSpeaker l.segmentLanguage =
      if segment.segmentSpeaker = l.segmentSpeaker ∧
          segment.segmentStartTime - l.segmentEndTime < START_NEW_SEGMENT_DELAY ∧
          segment.segmentLanguage = l.segmentLanguage ∧
          segment.segmentContentModeration = [] then
        merge_loop rest done
          (some { l with
            segmentEndTime := segment.segmentEndTime
            segmentText := l.segmentText ++ " " ++ segment.segmentText
            segmentConfidence := l.segmentConfidence ++ spacedTokens segment.segmentConfidence })
          l.segmentSpeaker l.segmentLanguage
      else
        merge_loop rest (done ++ [l]) (some segment)
          segment.segmentSpeaker segment.segmentLanguage := by
  cases hc : segment.segmentConfidence with
  | nil => exact absurd hc htok
  | cons w ws =>
    by_cases hspk : segment.segmentSpeaker = l.segmentSpeaker
    · by_cases hcond : segment.segmentStartTime - l.segmentEndTime ≥ START_NEW_SEGMENT_DELAY ∨
          segment.segmentLanguage ≠ l.segmentLanguage ∨
          segment.segmentContentModeration ≠ []
      · have hnot2 : ¬(segment.segmentStartTime - l.segmentEndTime < START_NEW_SEGMENT_DELAY ∧
            segment.segmentLanguage = l.segmentLanguage ∧
            segment.segmentContentModeration = []) := by
          rintro ⟨hl1, hl2, hl3⟩
          rcases hcond with h | h | h
          · exact absurd hl1 (not_lt.mpr h)
          · exact h hl2
          · exact h hl3
        simp [merge_loop, hspk, hcond, hnot2]
      · have hcond2 := hcond
        push_neg at hcond
        have hpos : segment.segmentSpeaker = l.segmentSpeaker ∧
            segment.segmentStartTime - l.segmentEndTime < START_NEW_SEGMENT_DELAY ∧
            segment.segmentLanguage = l.segmentLanguage ∧
            segment.segmentContentModeration = [] :=
          ⟨hspk, hcond.1, hcond.2.1, hcond.2.2⟩
        rw [if_pos hpos]
        have h1 : ¬(segment.segmentSpeaker ≠ l.segmentSpeaker) := by simp [hspk]
        simp only [merge_loop, if_neg h1, if_neg hcond2]
        unfold absorbSegment
        rw [hc]
        simp [spacedTokens, hc]
    · have hnot : ¬(segment.segmentSpeaker = l.segmentSpeaker ∧
          segment.segmentStartTime - l.segmentEndTime < START_NEW_SEGMENT_DELAY ∧
          segment.segmentLanguage = l.segmentLanguage ∧
          segment.segmentContentModeration = []) := fun hh => hspk hh.1
      simp [merge_loop, hspk, hnot]

theorem breakCond_congr (x l ls2 : SpeechSegment)
    (h1 : ls2.segmentStartTime = l.segmentStartTime)
    (h2 : ls2.segmentSpeaker = l.segmentSpeaker)
    (h3 : ls2.segmentLanguage = l.segmentLanguage)
    (h4 : ls2.segmentContentModeration = l.segmentContentModeration)
    (h : breakCond x l) : breakCond x ls2 := by
  unfold breakCond at h ⊢
  rw [h1, h2, h3, h4]
  exact h

theorem merge_loop_chain (rest : List SpeechSegment) :
    ∀ done last ls ll out,
      merge_loop rest done last ls ll = .ok out →
      List.Chain' breakCond (done ++ last.toList) →
      (∀ l, last = some l → ls = l.segmentSpeaker ∧ ll = l.segmentLanguage) →
      (last = none → done = []) →
      List.Chain' breakCond out := by
  induction rest with
  | nil =>
    intro done last ls ll out h hchain _ _
    simp only [merge_loop, Except.ok.injEq] at h
    exact h ▸ hchain
  | cons segment rest ih =>
    intro done last ls ll out h hchain hbind hnone
    simp only [merge_loop] at h
    split at h
    case isTrue hspk =>
      refine ih _ _ _ _ _ h ?_ ?_ ?_
      · cases hl : last with
        | none =>
          have hd := hnone hl
          subst hd
          simp [List.chain'_singleton]
        | some l =>
          subst hl
          have hb : breakCond l segment :=
            Or.inl (by rw [← (hbind l rfl).1]; exact hspk)
          simp only [Option.toList_some]
          refine List.Chain'.append hchain (List.chain'_singleton segment) ?_
          intro x hx y hy
          simp only [Option.toList_some, List.getLast?_concat, Option.mem_def,
            Option.some.injEq] at hx
          simp only [Option.toList_some, List.head?_cons, Option.mem_def, Option.some.injEq] at hy
          subst hx; subst hy
          exact hb
      · intro l2 hl2
        cases hl2
        exact ⟨rfl, rfl⟩
      · simp
    case isFalse hspk =>
      cases last with
      | none => simp at h
      | some l =>
        simp only at h
        split at h
        next hcond =>
          refine ih _ _ _ _ _ h ?_ ?_ ?_
          · have hb : breakCond l segment := by
              obtain ⟨hl1, hl2⟩ := hbind l rfl
              rcases hcond with hgap | hlang | hmod
              · exact Or.inr (Or.inl hgap)
              · exact Or.inr (Or.inr (Or.inl (by rw [← hl2]; exact hlang)))
              · exact Or.inr (Or.inr (Or.inr hmod))
            simp only [Option.toList_some] at hchain
            refine List.Chain'.append hchain (List.chain'_singleton segment) ?_
            intro x hx y hy
            simp only [List.getLast?_concat, Option.mem_def, Option.some.injEq] at hx
            simp only [Option.toList_some, List.head?_cons, Option.mem_def, Option.some.injEq] at hy
            subst hx; subst hy
            exact hb
          · intro l2 hl2
            cases hl2
            exact ⟨rfl, rfl⟩
          · simp
        next hcond =>
          cases ha : absorbSegment l segment with
          | error e => rw [ha] at h; simp at h
          | ok ls2 =>
            rw [ha] at h
            obtain ⟨g1, g2, g3, g4⟩ := absorbSegment_fields l segment ls2 ha
            refine ih _ _ _ _ _ h ?_ ?_ ?_
            · simp only [Option.toList_some] at hchain ⊢
              rw [List.chain'_append] at hchain ⊢
              obtain ⟨hc1, _, hc3⟩ := hchain
              refine ⟨hc1, List.chain'_singleton ls2, ?_⟩
              intro x hx y hy
              simp only [Option.toList_some, List.head?_cons, Option.mem_def, Option.some.injEq] at hy
              subst hy
              exact breakCond_congr x l ls2 g1 g2 g3 g4
                (hc3 x hx l (by simp))
            · intro l2 hl2
              cases hl2
              obtain ⟨hl1, hl2⟩ := hbind l rfl
              exact ⟨hl1.trans g2.symm, hl2.trans g3.symm⟩
            · simp

theorem merge_loop_selfmerge (rest : List SpeechSegment) :
    ∀ done l, List.Chain' breakCond (l :: rest) →
      merge_loop rest done (some l) l.segmentSpeaker l.segmentLanguage =
        .ok (done ++ l :: rest) := by
  induction rest with
  | nil =>
    intro done l _
    simp [merge_loop]
  | cons segment rest ih =>
    intro done l hchain
    rw [List.chain'_cons] at hchain
    obtain ⟨hb, hchain2⟩ := hchain
    by_cases hspk : segment.segmentSpeaker ≠ l.segmentSpeaker
    · simp only [merge_loop, if_pos hspk, Option.toList_some]
      rw [ih (done ++ [l]) segment hchain2]
      simp
    · have hcond : segment.segmentStartTime - l.segmentEndTime ≥ START_NEW_SEGMENT_DELAY ∨
          segment.segmentLanguage ≠ l.segmentLanguage ∨
          segment.segmentContentModeration ≠ [] := by
        rcases hb with hs | rest3
        · exact absurd hs hspk
        · exact rest3
      simp only [merge_loop, if_neg hspk, if_pos hcond]
      rw [ih (done ++ [l]) segment hchain2]
      simp

/-- The merge pass never merges, and never fails, when re-applied to a list
whose adjacent pairs all satisfy the break condition and whose first element
has a non-empty speaker label. -/
theorem merge_chain_fixed (out : List SpeechSegment)
    (hchain : List.Chain' breakCond out)
    (hhead : ∀ t, out.head? = some t → t.segmentSpeaker ≠ "") :
    merge_speaker_segments out = .ok out := by
  cases out with
  | nil => simp [merge_speaker_segments, merge_loop]
  | cons t suffix =>
    have hne : t.segmentSpeaker ≠ "" := hhead t rfl
    unfold merge_speaker_segments
    simp only [merge_loop, if_pos hne, Option.toList_none, List.append_nil]
    exact merge_loop_selfmerge suffix [] t hchain

/-! ### Claim theorems: the merge pass -/

/-- C7: the Segment Merger is idempotent on its own output — whenever
`merge_speaker_segments input = .ok out`, re-running it on `out` returns
`out` unchanged (no further absorption, no mutation, no failure). -/
theorem claim_C7_merge_idempotent (input out : List SpeechSegment)
    (h : merge_speaker_segments input = .ok out) :
    merge_speaker_segments out = .ok out := by
  cases input with
  | nil =>
    unfold merge_speaker_segments at h
    simp only [merge_loop, Option.toList_none, List.append_nil, Except.ok.injEq] at h
    subst h
    simp [merge_speaker_segments, merge_loop]
  | cons seg rest =>
    unfold merge_speaker_segments at h
    by_cases hspk : seg.segmentSpeaker ≠ ""
    · simp only [merge_loop, if_pos hspk, Option.toList_none, List.append_nil] at h
      have hchain :=
        merge_loop_chain rest [] (some seg) seg.segmentSpeaker seg.segmentLanguage out h
          (by simp [List.chain'_singleton])
          (fun l hl => by cases hl; exact ⟨rfl, rfl⟩)
          (by simp)
      obtain ⟨t, suffix, hout, _, h2, _, _⟩ :=
        merge_loop_head rest seg seg.segmentSpeaker seg.segmentLanguage out h
      refine merge_chain_fixed out hchain ?_
      intro t2 ht2
      rw [hout, List.head?_cons, Option.some.injEq] at ht2
      subst ht2
      rw [h2]
      exact hspk
    · simp only [merge_loop, if_neg hspk] at h
      simp at h

/-- Witness for C7: `[segScenA, segScenB05]` merges into the single segment
`segScenMerged`, and re-running the merge on that output leaves it
unchanged. -/
theorem claim_C7_merge_idempotent_witness :
    merge_speaker_segments [segScenMerged] = .ok [segScenMerged] := by
  refine claim_C7_merge_idempotent [segScenA, segScenB05] [segScenMerged] ?_
  simp only [merge_speaker_segments, merge_loop, absorbSegment, segScenA, segScenB05,
    segScenMerged, mkTok, START_NEW_SEGMENT_DELAY]
  norm_num
  simp

/-- C6 counterexample: the first input segment does NOT always start the
output list — with a speaker label equal to the empty string the merge
raises `AttributeError` (the short-circuited speaker test fails, and the
gap test dereferences `lastSegment = None`). -/
theorem claim_C6_counterexample :
    merge_speaker_segments [segNoSpeaker] = .error .attributeError := by
  simp [merge_speaker_segments, merge_loop, segNoSpeaker]

/-- C6 (amended): for every non-empty input list whose first segment has a
non-empty speaker label, a successful merge starts its output with that
first segment (same start time, speaker, language and moderation flags),
whatever its language or timestamps. -/
theorem claim_C6_first_starts_output (seg : SpeechSegment)
    (rest out : List SpeechSegment) (hspk : seg.segmentSpeaker ≠ "")
    (h : merge_speaker_segments (seg :: rest) = .ok out) :
    ∃ t suffix, out = t :: suffix ∧
      t.segmentStartTime = seg.segmentStartTime ∧
      t.segmentSpeaker = seg.segmentSpeaker ∧
      t.segmentLanguage = seg.segmentLanguage ∧
      t.segmentContentModeration = seg.segmentContentModeration := by
  unfold merge_speaker_segments at h
  simp only [merge_loop, if_pos hspk, Option.toList_none, List.append_nil] at h
  exact merge_loop_head rest seg seg.segmentSpeaker seg.segmentLanguage out h

/-- Witness for the amended C6 at a concrete input. -/
theorem claim_C6_first_starts_output_witness :
    ∃ t suffix, [segBob] = t :: suffix ∧
      t.segmentStartTime = segBob.segmentStartTime ∧
      t.segmentSpeaker = segBob.segmentSpeaker ∧
      t.segmentLanguage = segBob.segmentLanguage ∧
      t.segmentContentModeration = segBob.segmentContentModeration := by
  refine claim_C6_first_starts_output segBob [] [segBob] (by simp [segBob]) ?_
  simp [merge_speaker_segments, merge_loop, segBob]

/-- C10: for an input list in which a segment satisfying all four
continuation conditions (same speaker, gap below the threshold, same
language, no moderation flags) carries an empty token list, the merge
raises `IndexError` while prepending the leading space to
`segmentConfidence[0]`. -/
theorem claim_C10_empty_token_merge_error :
    (segBobEmpty.segmentSpeaker = segBob.segmentSpeaker ∧
      segBobEmpty.segmentStartTime - segBob.segmentEndTime < START_NEW_SEGMENT_DELAY ∧
      segBobEmpty.segmentLanguage = segBob.segmentLanguage ∧
      segBobEmpty.segmentContentModeration = [] ∧
      segBobEmpty.segmentConfidence = []) ∧
    merge_speaker_segments [segBob, segBobEmpty] = .error .indexError := by
  constructor
  · refine ⟨by simp [segBob, segBobEmpty], ?_, by simp [segBob, segBobEmpty],
      by simp [segBobEmpty], by simp [segBobEmpty]⟩
    simp only [segBob, segBobEmpty, START_NEW_SEGMENT_DELAY]
    norm_num
  · simp only [merge_speaker_segments, merge_loop, absorbSegment, segBob, segBobEmpty,
      START_NEW_SEGMENT_DELAY, mkTok]
    norm_num
    simp

/-- C3 counterexample: a segment satisfying all four continuation conditions
is NOT absorbed when its token list is empty — the merge raises `IndexError`
instead of performing the described absorption. -/
theorem claim_C3_counterexample :
    (segAliceEmpty.segmentSpeaker = segAlice.segmentSpeaker ∧
      segAliceEmpty.segmentStartTime - segAlice.segmentEndTime < START_NEW_SEGMENT_DELAY ∧
      segAliceEmpty.segmentLanguage = segAlice.segmentLanguage ∧
      segAliceEmpty.segmentContentModeration = []) ∧
    merge_speaker_segments [segAlice, segAliceEmpty] = .error .indexError := by
  constructor
  · refine ⟨by simp [segAlice, segAliceEmpty], ?_, by simp [segAlice, segAliceEmpty],
      by simp [segAliceEmpty]⟩
    simp only [segAlice, segAliceEmpty, START_NEW_SEGMENT_DELAY]
    norm_num
  · simp only [merge_speaker_segments, merge_loop, absorbSegment, segAlice, segAliceEmpty,
      START_NEW_SEGMENT_DELAY, mkTok]
    norm_num
    simp

/-- C3 (amended): with a previous output segment present and an absorbed
segment carrying at least one token, one merge step absorbs the segment into
the previous output segment exactly when all four conditions hold (same
speaker, gap strictly below `START_NEW_SEGMENT_DELAY`, same language, empty
moderation flags); absorption sets the previous segment's end time to the
absorbed end time, appends a single space plus the absorbed text, prepends a
space to the absorbed first token and appends all absorbed tokens in order;
otherwise the segment starts a new output entry. -/
theorem claim_C3_merge_step (rest done : List SpeechSegment)
    (l segment : SpeechSegment) (htok : segment.segmentConfidence ≠ []) :
    merge_loop (segment :: rest) done (some l) l.segmentSpeaker l.segmentLanguage =
      if segment.segmentSpeaker = l.segmentSpeaker ∧
          segment.segmentStartTime - l.segmentEndTime < START_NEW_SEGMENT_DELAY ∧
          segment.segmentLanguage = l.segmentLanguage ∧
          segment.segmentContentModeration = [] then
        merge_loop rest done
          (some { l with
            segmentEndTime := segment.segmentEndTime
            segmentText := l.segmentText ++ " " ++ segment.segmentText
            segmentConfidence := l.segmentConfidence ++ spacedTokens segment.segmentConfidence })
          l.segmentSpeaker l.segmentLanguage
      else
        merge_loop rest (done ++ [l]) (some segment)
          segment.segmentSpeaker segment.segmentLanguage :=
  merge_step_eq rest done l segment htok

/-- Witness for the amended C3, covering the spec scenario: with the same
speaker and language, turn B starting `0.5 s` after turn A is merged into a
single output segment, while turn B starting `3.0 s` after turn A stays a
separate segment. -/
theorem claim_C3_merge_step_witness :
    (merge_speaker_segments [segScenA, segScenB05]).map List.length = .ok 1 ∧
    (merge_speaker_segments [segScenA, segScenB30]).map List.length = .ok 2 := by
  have h05 := claim_C3_merge_step [] [] segScenA segScenB05 (by simp [segScenB05, mkTok])
  have h30 := claim_C3_merge_step [] [] segScenA segScenB30 (by simp [segScenB30, mkTok])
  constructor
  · rw [show merge_speaker_segments [segScenA, segScenB05] =
        merge_loop [segScenB05] [] (some segScenA)
          segScenA.segmentSpeaker segScenA.segmentLanguage from rfl, h05]
    rw [if_pos ?_]
    · simp [merge_loop, Except.map]
    · refine ⟨by simp [segScenA, segScenB05], ?_, by simp [segScenA, segScenB05],
        by simp [segScenB05]⟩
      simp only [segScenA, segScenB05, START_NEW_SEGMENT_DELAY]
      norm_num
  · rw [show merge_speaker_segments [segScenA, segScenB30] =
        merge_loop [segScenB30] [] (some segScenA)
          segScenA.segmentSpeaker segScenA.segmentLanguage from rfl, h30]
    rw [if_neg ?_]
    · simp [merge_loop, Except.map]
    · rintro ⟨-, hgap, -, -⟩
      rw [show segScenB30.segmentStartTime = 13 from rfl,
        show segScenA.segmentEndTime = 10 from rfl] at hgap
      norm_num [START_NEW_SEGMENT_DELAY] at hgap

/-- C1 counterexample: a segment with non-empty `moderationFlags` is NOT
isolated — the guard only inspects the current segment's moderation list, so
a later unflagged segment (same speaker, same language, gap `0.5 s`) is
absorbed into the flagged segment: the two input segments yield a single
output segment. -/
theorem claim_C1_counterexample :
    (segFlagged.segmentContentModeration ≠ [] ∧
      segFollow.segmentContentModeration = [] ∧
      segFollow.segmentSpeaker = segFlagged.segmentSpeaker ∧
      segFollow.segmentLanguage = segFlagged.segmentLanguage ∧
      segFollow.segmentStartTime - segFlagged.segmentEndTime < START_NEW_SEGMENT_DELAY) ∧
    (merge_speaker_segments [segFlagged, segFollow]).map List.length = .ok 1 := by
  constructor
  · refine ⟨by simp [segFlagged], by simp [segFollow], by simp [segFlagged, segFollow],
      by simp [segFlagged, segFollow], ?_⟩
    simp only [segFlagged, segFollow, START_NEW_SEGMENT_DELAY]
    norm_num
  · simp only [merge_speaker_segments, merge_loop, absorbSegment, segFlagged, segFollow,
      START_NEW_SEGMENT_DELAY, mkTok]
    norm_num
    simp [Except.map]

/-- C1 (amended): a segment carrying moderation flags never merges into a
predecessor — whenever a previous output segment exists, a flagged segment
always starts a new output entry, regardless of speaker equality, language
equality, or gap size (it does not, however, block later segments from
merging into it). -/
theorem claim_C1_flagged_new_entry (rest done : List SpeechSegment)
    (l segment : SpeechSegment) (ls ll : String)
    (hmod : segment.segmentContentModeration ≠ []) :
    merge_loop (segment :: rest) done (some l) ls ll =
      merge_loop rest (done ++ [l]) (some segment)
        segment.segmentSpeaker segment.segmentLanguage :=
  merge_flagged_new_entry rest done l segment ls ll hmod

/-- Witness for the amended C1: the flagged segment starts a new output
entry after `segPrev` even though speaker, language and gap would all allow
continuation. -/
theorem claim_C1_flagged_new_entry_witness :
    merge_loop [segFlagged] [] (some segPrev)
      segPrev.segmentSpeaker segPrev.segmentLanguage = .ok [segPrev, segFlagged] := by
  rw [claim_C1_flagged_new_entry [] [] segPrev segFlagged
    segPrev.segmentSpeaker segPrev.segmentLanguage (by simp [segFlagged])]
  simp [merge_loop]

/-! ### Claim theorems: transcript writing and topic stopping points -/

theorem markTopicsAt_not_mem (start : Int) (topics : List TimedTopic)
    (unmarked : List Int) (h : start ∉ unmarked) :
    markTopicsAt start topics unmarked = .ok (topics, unmarked, []) := by
  rw [markTopicsAt]
  rw [dif_neg h]

theorem any_pyIntEqTopicDict (n : Int) (l : List TimedTopic) :
    l.any (pyIntEqTopicDict n) = false := by
  induction l with
  | nil => rfl
  | cons t l ih => simp [pyIntEqTopicDict, ih]

theorem writeTranscribeLoop_length (segments : List SpeechSegment) :
    ∀ topics unmarked rows,
      writeTranscribeLoop segments topics unmarked = .ok rows →
      rows.length = segments.length := by
  induction segments with
  | nil =>
    intro topics unmarked rows h
    simp only [writeTranscribeLoop, Except.ok.injEq] at h
    simp [← h]
  | cons segment rest ih =>
    intro topics unmarked rows h
    simp only [writeTranscribeLoop] at h
    cases hm : markTopicsAt (pyInt (segment.segmentStartTime * 1000)) topics unmarked with
    | error e =>
      rw [hm] at h
      simp at h
    | ok tri =>
      rw [hm] at h
      obtain ⟨topics2, unmarked2, markers⟩ := tri
      simp only at h
      rw [any_pyIntEqTopicDict] at h
      simp only [Bool.false_eq_true, if_false] at h
      cases hr : writeTranscribeLoop rest topics2 unmarked2 with
      | error e => rw [hr] at h; simp at h
      | ok rows2 =>
        rw [hr] at h
        simp only [Except.ok.injEq] at h
        rw [← h, List.length_cons, ih topics2 unmarked2 rows2 hr]
        simp

/-- C2: a segment whose end time in integer milliseconds exactly equals a
topic event's timestamp is NOT flagged as a stopping point — the Python test
`end_in_millis in timed_topics` compares an `int` against the `dict`
elements of `timed_topics`, which is always false, so the loop writes every
remaining segment instead of breaking.  Here `segEnd5` ends at exactly
`5000 ms = topicAt5000.start_time`, yet both rows are written. -/
theorem claim_C2_no_stop_at_topic_end :
    pyInt (segEnd5.segmentEndTime * 1000) = topicAt5000.start_time ∧
    (write_transcribe_text [segEnd5, segAfter5] [topicAt5000]).map List.length = .ok 2 := by
  constructor
  · simp only [segEnd5, topicAt5000, pyInt]
    norm_num
  · have ha : pyInt (segEnd5.segmentStartTime * 1000) ∉
        ([topicAt5000].map (fun d => d.start_time)) := by
      simp only [segEnd5, topicAt5000, pyInt, List.map, List.mem_singleton]
      norm_num
    have hb : pyInt (segAfter5.segmentStartTime * 1000) ∉
        ([topicAt5000].map (fun d => d.start_time)) := by
      simp only [segAfter5, topicAt5000, pyInt, List.map, List.mem_singleton]
      norm_num
    have heval : write_transcribe_text [segEnd5, segAfter5] [topicAt5000] =
        .ok [{ segment := segEnd5, markers := [] },
          { segment := segAfter5, markers := [] }] := by
      simp only [write_transcribe_text]
      simp only [writeTranscribeLoop, markTopicsAt_not_mem _ _ _ ha,
        markTopicsAt_not_mem _ _ _ hb, any_pyIntEqTopicDict,
        Bool.false_eq_true, if_false]
    rw [heval]
    simp [Except.map]

/-! ### Claim theorems: sentiment classification -/

/-- C4: for every eligible segment (supported language, text length at least
`MIN_SENTIMENT_LENGTH`) in its fresh state, `generate_sentiment` with scores
`(positiveBase, negativeBase)`: if `negativeBase ≥ 0.4` the segment is
labelled negative with score `negativeBase` irrespective of `positiveBase`;
else if `positiveBase ≥ 0.6` it is labelled positive with score
`positiveBase`; else neither label is set and the score stays at the unset
sentinel `-1.0`.  The raw score pair is retained in all three cases. -/
theorem claim_C4_sentiment_classification (score : String → String → ℚ × ℚ)
    (seg : SpeechSegment)
    (hlang : seg.segmentLanguage ∈ SENTIMENT_LANGUAGES)
    (hlen : seg.segmentText.length ≥ MIN_SENTIMENT_LENGTH)
    (hfresh1 : seg.segmentIsPositive = false)
    (hfresh2 : seg.segmentIsNegative = false)
    (hfresh3 : seg.segmentSentimentScore = -1) :
    ∃ res, generate_sentiment score [seg] = [res] ∧
      res.segmentPositive = (score seg.segmentText seg.segmentLanguage).1 ∧
      res.segmentNegative = (score seg.segmentText seg.segmentLanguage).2 ∧
      ((score seg.segmentText seg.segmentLanguage).2 ≥ MIN_SENTIMENT_NEGATIVE →
        res.segmentIsNegative = true ∧ res.segmentIsPositive = false ∧
        res.segmentSentimentScore = (score seg.segmentText seg.segmentLanguage).2) ∧
      ((score seg.segmentText seg.segmentLanguage).2 < MIN_SENTIMENT_NEGATIVE →
        (score seg.segmentText seg.segmentLanguage).1 ≥ MIN_SENTIMENT_POSITIVE →
        res.segmentIsPositive = true ∧ res.segmentIsNegative = false ∧
        res.segmentSentimentScore = (score seg.segmentText seg.segmentLanguage).1) ∧
      ((score seg.segmentText seg.segmentLanguage).2 < MIN_SENTIMENT_NEGATIVE →
        (score seg.segmentText seg.segmentLanguage).1 < MIN_SENTIMENT_POSITIVE →
        res.segmentIsPositive = false ∧ res.segmentIsNegative = false ∧
        res.segmentSentimentScore = -1) := by
  refine ⟨sentimentStep score seg, by simp [generate_sentiment], ?_⟩
  unfold sentimentStep classifySegmentSentiment
  rw [if_pos hlang, if_pos hlen]
  by_cases hneg : (score seg.segmentText seg.segmentLanguage).2 ≥ MIN_SENTIMENT_NEGATIVE
  · rw [if_pos hneg]
    refine ⟨rfl, rfl, fun _ => ⟨rfl, hfresh1, rfl⟩, ?_, ?_⟩
    · intro hlt _
      exact absurd hneg (not_le.mpr hlt)
    · intro hlt _
      exact absurd hneg (not_le.mpr hlt)
  · rw [if_neg hneg]
    by_cases hpos : (score seg.segmentText seg.segmentLanguage).1 ≥ MIN_SENTIMENT_POSITIVE
    · rw [if_pos hpos]
      refine ⟨rfl, rfl, fun hge => absurd hge hneg, fun _ _ => ⟨rfl, hfresh2, rfl⟩, ?_⟩
      intro _ hlt
      exact absurd hpos (not_le.mpr hlt)
    · rw [if_neg hpos]
      exact ⟨rfl, rfl, fun hge => absurd hge hneg,
        fun _ hge => absurd hge hpos, fun _ _ => ⟨hfresh1, hfresh2, hfresh3⟩⟩

/-- Witness for C4 at the spec scenario `positiveScore = 0.65`,
`negativeScore = 0.1` on an eligible fresh segment. -/
theorem claim_C4_sentiment_classification_witness :
    ∃ res, generate_sentiment (fun _ _ => ((0.65 : ℚ), (0.1 : ℚ))) [eligSeg] = [res] ∧
      res.segmentPositive = 0.65 ∧
      res.segmentNegative = 0.1 ∧
      res.segmentIsPositive = true ∧
      res.segmentIsNegative = false ∧
      res.segmentSentimentScore = 0.65 := by
  obtain ⟨res, h1, h2, h3, _, h5, _⟩ :=
    claim_C4_sentiment_classification (fun _ _ => ((0.65 : ℚ), (0.1 : ℚ))) eligSeg
      (by simp [eligSeg, SENTIMENT_LANGUAGES])
      (by rw [show eligSeg.segmentText = "This is a sample sentence." from rfl]
          rw [show ("This is a sample sentence." : String).length = 26 from by decide]
          simp [MIN_SENTIMENT_LENGTH])
      rfl rfl rfl
  obtain ⟨h6, h7, h8⟩ := h5 (by norm_num [MIN_SENTIMENT_NEGATIVE])
    (by norm_num [MIN_SENTIMENT_POSITIVE])
  exact ⟨res, h1, h2, h3, h6, h7, h8⟩

/-! ### Claim theorems: the word assembler fails fast on malformed input -/

theorem buildSegments_error_of_bad_turn (data : BdaData) (cli_args : CliArgs) :
    ∀ turns index,
      (∃ turn ∈ turns, ∃ p ps w, turn.audio_item_indices = p :: ps ∧
        data.audio_items[p]? = some w ∧ w.timing = none) →
      ∃ e, buildSegments data cli_args index turns = .error e := by
  intro turns
  induction turns with
  | nil =>
    intro index h
    obtain ⟨turn, hmem, -⟩ := h
    exact absurd hmem (List.not_mem_nil turn)
  | cons turn rest ih =>
    intro index h
    obtain ⟨turn2, hmem, p, ps, w, hidx, hlook, htim⟩ := h
    rcases List.mem_cons.mp hmem with hfirst | hrest
    · subst hfirst
      have hbuild : buildTurnSegment data cli_args index turn2 = .error .indexError := by
        unfold buildTurnSegment
        rw [hidx]
        simp only [processTurnItems, hlook, htim, List.getLast?_nil]
      refine ⟨.indexError, ?_⟩
      simp only [buildSegments, hbuild]
    · cases hb : buildTurnSegment data cli_args index turn with
      | error e =>
        refine ⟨e, ?_⟩
        simp only [buildSegments, hb]
      | ok seg =>
        obtain ⟨e, he⟩ := ih (index + 1) ⟨turn2, hrest, p, ps, w, hidx, hlook, htim⟩
        refine ⟨e, ?_⟩
        simp only [buildSegments, hb, he]

/-- C9: whenever some turn's item sequence begins with an untimed
(punctuation) item — an untimed item with no preceding timed token in that
turn — the segment builder fails fast with an error (the assembler indexes
`segmentConfidence[-1]` on an empty list) instead of silently dropping the
item. -/
theorem claim_C9_untimed_first_item_errors (data : BdaData) (cli_args : CliArgs)
    (h : ∃ turn ∈ data.audio_segments, ∃ p ps w,
      turn.audio_item_indices = p :: ps ∧
      data.audio_items[p]? = some w ∧ w.timing = none) :
    ∃ e, create_turn_by_turn_segments data cli_args = .error e := by
  obtain ⟨e, he⟩ := buildSegments_error_of_bad_turn data cli_args data.audio_segments 0 h
  refine ⟨e, ?_⟩
  unfold create_turn_by_turn_segments
  rw [he]

/-- Witness for C9: a single turn whose first (and only) item is the untimed
punctuation `"."`. -/
theorem claim_C9_untimed_first_item_errors_witness :
    ∃ e, create_turn_by_turn_segments malformedData cargsOff = .error e := by
  refine claim_C9_untimed_first_item_errors malformedData cargsOff ?_
  refine ⟨malformedData.audio_segments.head (by simp [malformedData]), ?_, 0, [],
    { content := ".", timing := none }, ?_, ?_, rfl⟩
  · simp [malformedData]
  · simp [malformedData]
  · simp [malformedData]

/-! ### Claim theorems: the word assembler (leading-space policy) -/

theorem head_dropWhile_false {α : Type} (p : α → Bool) :
    ∀ l : List α, ∀ w, (l.dropWhile p).head? = some w → p w = false := by
  intro l
  induction l with
  | nil =>
    intro w h
    simp [List.dropWhile] at h
  | cons a l ih =>
    intro w h
    by_cases hp : p a = true
    · rw [List.dropWhile_cons_of_pos hp] at h
      exact ih w h
    · rw [List.dropWhile_cons_of_neg hp] at h
      simp only [List.head?_cons, Option.some.injEq] at h
      subst h
      exact Bool.not_eq_true _ |>.mp hp

theorem processTurnItems_eq_list (data : BdaData) :
    ∀ (indices : List Nat) (items : List AudioItem) (acc : List WordConf) (skip : Bool),
      indices.mapM (fun p => data.audio_items[p]?) = some items →
      processTurnItems data indices acc skip = processItemsList items acc skip := by
  intro indices
  induction indices with
  | nil =>
    intro items acc skip h
    simp only [List.mapM_nil, Option.pure_def, Option.some.injEq] at h
    subst h
    rfl
  | cons p ps ih =>
    intro items acc skip h
    simp only [List.mapM_cons] at h
    cases hl : data.audio_items[p]? with
    | none => rw [hl] at h; simp at h
    | some w =>
      rw [hl] at h
      cases hm : ps.mapM (fun q => data.audio_items[q]?) with
      | none => rw [hm] at h; simp at h
      | some ws =>
        rw [hm] at h
        simp at h
        subst h
        simp only [processTurnItems, hl, processItemsList]
        cases ht : w.timing with
        | some se =>
          exact ih ws _ false hm
        | none =>
          cases hg : acc.getLast? with
          | none => rfl
          | some lw => exact ih ws _ skip hm

theorem processItemsList_absorb_puncts :
    ∀ (us : List AudioItem), (∀ u ∈ us, u.timing = none) →
      ∀ (rest : List AudioItem) (acc : List WordConf) (a : WordConf) (skip : Bool),
        processItemsList (us ++ rest) (acc ++ [a]) skip =
          processItemsList rest
            (acc ++ [{ a with text := a.text ++ concatTexts (us.map (fun u => u.content)) }])
            skip := by
  intro us
  induction us with
  | nil =>
    intro _ rest acc a skip
    simp only [List.nil_append, List.map_nil, concatTexts]
    have : a.text ++ "" = a.text := by simp
    rw [this]
  | cons u us ih =>
    intro hus rest acc a skip
    have hu : u.timing = none := hus u (by simp)
    simp only [List.cons_append, processItemsList, hu, List.getLast?_concat,
      List.dropLast_concat, List.append_eq]
    rw [ih (fun v hv => hus v (by simp [hv])) rest acc
      { a with text := a.text ++ u.content } skip]
    simp only [List.map_cons, concatTexts, String.append_assoc]

theorem processItemsList_spec :
    ∀ (n : Nat) (items : List AudioItem), items.length ≤ n →
      (∀ w ∈ items.head?, w.timing.isSome) →
      ∀ (acc : List WordConf) (skip : Bool),
        processItemsList items acc skip = .ok (acc ++ assemblerSpec skip items) := by
  intro n
  induction n with
  | zero =>
    intro items hlen _ acc skip
    have : items = [] := List.length_eq_zero.mp (Nat.le_zero.mp hlen)
    subst this
    simp [processItemsList, assemblerSpec]
  | succ n ih =>
    intro items hlen hhd acc skip
    cases items with
    | nil => simp [processItemsList, assemblerSpec]
    | cons w rest =>
      have hw : w.timing.isSome := hhd w (by simp)
      cases ht : w.timing with
      | none => rw [ht] at hw; simp at hw
      | some se =>
        obtain ⟨s, e⟩ := se
        rw [show assemblerSpec skip (w :: rest) =
          { text := (if skip then "" else " ") ++ w.content ++
              concatTexts ((rest.takeWhile isUntimed).map (fun i => i.content))
            confidence := 1.0
            start_time := s / 1000
            end_time := e / 1000 } :: assemblerSpec false (rest.dropWhile isUntimed) from by
            rw [assemblerSpec]
            simp [ht]]
        simp only [processItemsList, ht]
        conv_lhs => rw [← List.takeWhile_append_dropWhile isUntimed rest]
        rw [processItemsList_absorb_puncts (rest.takeWhile isUntimed)
          (fun u hu => by
            have := List.mem_takeWhile_imp hu
            simpa [isUntimed, Option.isNone_iff_eq_none] using this)
          (rest.dropWhile isUntimed) acc _ false]
        rw [ih (rest.dropWhile isUntimed)
          (by
            have h1 : (rest.dropWhile isUntimed).length ≤ rest.length :=
              (List.dropWhile_sublist isUntimed).length_le
            have h2 : rest.length ≤ n := by
              simpa [List.length_cons, Nat.succ_le_succ_iff] using hlen
            omega)
          (fun v hv => by
            have := head_dropWhile_false isUntimed rest v hv
            simpa [isUntimed, Option.isNone_iff_eq_none, Option.isSome_iff_ne_none] using this)
          _ false]
        cases skip with
        | true => simp
        | false => simp [String.append_assoc]

theorem assemblerSpec_length :
    ∀ (n : Nat) (items : List AudioItem), items.length ≤ n → ∀ skip,
      (assemblerSpec skip items).length =
        items.countP (fun i => i.timing.isSome) := by
  intro n
  induction n with
  | zero =>
    intro items hlen _
    have : items = [] := List.length_eq_zero.mp (Nat.le_zero.mp hlen)
    subst this
    simp [assemblerSpec]
  | succ n ih =>
    intro items hlen skip
    cases items with
    | nil => simp [assemblerSpec]
    | cons w rest =>
      have hr : rest.length ≤ n := by
        simpa [List.length_cons, Nat.succ_le_succ_iff] using hlen
      cases ht : w.timing with
      | none =>
        rw [show assemblerSpec skip (w :: rest) = assemblerSpec skip rest from by
          rw [assemblerSpec]; simp [ht]]
        rw [ih rest hr skip]
        rw [List.countP_cons_of_neg]
        simp [ht]
      | some se =>
        obtain ⟨s, e⟩ := se
        rw [show assemblerSpec skip (w :: rest) =
          { text := (if skip then "" else " ") ++ w.content ++
              concatTexts ((rest.takeWhile isUntimed).map (fun i => i.content))
            confidence := 1.0
            start_time := s / 1000
            end_time := e / 1000 } :: assemblerSpec false (rest.dropWhile isUntimed) from by
            rw [assemblerSpec]
            simp [ht]]
        rw [List.length_cons]
        rw [ih (rest.dropWhile isUntimed)
          (le_trans (List.dropWhile_sublist isUntimed).length_le hr) false]
        rw [List.countP_cons_of_pos]
        · conv_rhs => rw [← List.takeWhile_append_dropWhile isUntimed rest]
          rw [List.countP_append]
          have hz : (rest.takeWhile isUntimed).countP (fun i => i.timing.isSome) = 0 := by
            rw [List.countP_eq_zero]
            intro u hu
            have := List.mem_takeWhile_imp hu
            simp only [isUntimed, Option.isNone_iff_eq_none] at this
            simp [this]
          rw [hz]
          omega
        · simp [ht]

/-- C8: for every turn whose (resolved) item sequence begins with a timed
item, the word assembler produces exactly one token per timed item, grouped
as described by `assemblerSpec`: the first timed item's text is emitted
verbatim with no leading space, every subsequent timed item's text gets
exactly one leading space, and each untimed (punctuation) item is
concatenated, with no space and creating no new token, onto the text of the
most recently emitted token, whose timing it leaves unchanged. -/
theorem claim_C8_word_assembler (data : BdaData) (indices : List Nat)
    (items : List AudioItem) (w0 : AudioItem) (rest : List AudioItem)
    (hres : indices.mapM (fun p => data.audio_items[p]?) = some items)
    (hitems : items = w0 :: rest) (hw0 : w0.timing.isSome) :
    processTurnItems data indices [] true = .ok (assemblerSpec true items) ∧
    (assemblerSpec true items).length =
      items.countP (fun i => i.timing.isSome) := by
  constructor
  · rw [processTurnItems_eq_list data indices items [] true hres]
    have h := processItemsList_spec items.length items le_rfl
      (by
        subst hitems
        intro v hv
        simp only [List.head?_cons, Option.mem_def, Option.some.injEq] at hv
        subst hv
        exact hw0) [] true
    simpa using h
  · exact assemblerSpec_length items.length items le_rfl true

/-- Witness for C8 at the spec scenario: the timed word `Hello` followed by
the untimed punctuation `.` assembles into the single token `"Hello."`. -/
theorem claim_C8_word_assembler_witness :
    processTurnItems helloData [0, 1] [] true =
      .ok [{ text := "Hello.", confidence := 1, start_time := 1/10, end_time := 1/2 }] := by
  have h := (claim_C8_word_assembler helloData [0, 1]
    [{ content := "Hello", timing := some (100, 500) }, { content := ".", timing := none }]
    { content := "Hello", timing := some (100, 500) }
    [{ content := ".", timing := none }]
    (by rfl) rfl rfl).1
  rw [h]
  rw [assemblerSpec.eq_def]
  simp only [List.takeWhile, List.dropWhile, isUntimed]
  rw [assemblerSpec.eq_def]
  simp only [List.map, concatTexts]
  norm_num
  rfl

/-! ### Claim theorems: token/text preservation across assembly and merge -/

theorem concatTexts_append :
    ∀ xs ys : List String, concatTexts (xs ++ ys) = concatTexts xs ++ concatTexts ys := by
  intro xs ys
  induction xs with
  | nil => simp [concatTexts]
  | cons x xs ih => simp [concatTexts, ih, String.append_assoc]

theorem turnTextConsistent_spec (data : BdaData) (h : turnTextConsistent data = true) :
    ∀ turn ∈ data.audio_segments, ∀ toks,
      processTurnItems data turn.audio_item_indices [] true = .ok toks →
      turn.text = concatTexts (toks.map (fun w => w.text)) := by
  intro turn hmem toks htoks
  unfold turnTextConsistent at h
  rw [List.all_eq_true] at h
  have h2 := h turn hmem
  rw [htoks] at h2
  exact eq_of_beq h2

theorem buildSegments_text_tokens (data : BdaData) (cli_args : CliArgs) :
    ∀ (turns : List Turn) (index : Nat) (pre : List SpeechSegment),
      buildSegments data cli_args index turns = .ok pre →
      pre.map (fun s => s.segmentText) = turns.map (fun t => t.text) ∧
      ∀ p ∈ pre, ∃ turn ∈ turns,
        p.segmentText = turn.text ∧
        processTurnItems data turn.audio_item_indices [] true = .ok p.segmentConfidence := by
  intro turns
  induction turns with
  | nil =>
    intro index pre h
    simp only [buildSegments, Except.ok.injEq] at h
    subst h
    simp
  | cons turn rest ih =>
    intro index pre h
    simp only [buildSegments] at h
    cases hb : buildTurnSegment data cli_args index turn with
    | error e => rw [hb] at h; simp at h
    | ok seg =>
      rw [hb] at h
      cases hr : buildSegments data cli_args (index + 1) rest with
      | error e => rw [hr] at h; simp at h
      | ok others =>
        rw [hr] at h
        simp only [Except.ok.injEq] at h
        subst h
        obtain ⟨ih1, ih2⟩ := ih (index + 1) others hr
        have hseg : seg.segmentText = turn.text ∧
            processTurnItems data turn.audio_item_indices [] true = .ok seg.segmentConfidence := by
          unfold buildTurnSegment at hb
          cases hp : processTurnItems data turn.audio_item_indices [] true with
          | error e => rw [hp] at hb; simp at hb
          | ok toks =>
            rw [hp] at hb
            cases hm : buildModeration cli_args data index with
            | error e => rw [hm] at hb; simp at hb
            | ok mods =>
              rw [hm] at hb
              simp only [Except.ok.injEq] at hb
              subst hb
              exact ⟨rfl, rfl⟩
        constructor
        · simp only [List.map_cons, ih1, hseg.1]
        · intro p hp
          rcases List.mem_cons.mp hp with hfirst | hrest2
          · subst hfirst
            exact ⟨turn, by simp, hseg.1, hseg.2⟩
          · obtain ⟨t2, hmem2, h1, h2⟩ := ih2 p hrest2
            exact ⟨t2, by simp [hmem2], h1, h2⟩

theorem merge_loop_text_inv (rest : List SpeechSegment) :
    ∀ done last ls ll out,
      merge_loop rest done last ls ll = .ok out →
      (∀ s ∈ done ++ last.toList, s.segmentText = concatTok s) →
      (∀ s ∈ rest, s.segmentText = concatTok s) →
      ∀ s ∈ out, s.segmentText = concatTok s := by
  induction rest with
  | nil =>
    intro done last ls ll out h hst _
    simp only [merge_loop, Except.ok.injEq] at h
    exact h ▸ hst
  | cons segment rest ih =>
    intro done last ls ll out h hst hrest
    have hseg : segment.segmentText = concatTok segment := hrest segment (by simp)
    have hrest2 : ∀ s ∈ rest, s.segmentText = concatTok s :=
      fun s hs => hrest s (by simp [hs])
    simp only [merge_loop] at h
    split at h
    · refine ih _ _ _ _ _ h ?_ hrest2
      intro s hs
      rcases List.mem_append.mp hs with hs1 | hs2
      · exact hst s (by simp [hs1])
      · simp only [Option.toList_some, List.mem_singleton] at hs2
        subst hs2
        exact hseg
    · cases last with
      | none => simp at h
      | some l =>
        simp only at h
        split at h
        · refine ih _ _ _ _ _ h ?_ hrest2
          intro s hs
          rcases List.mem_append.mp hs with hs1 | hs2
          · rcases List.mem_append.mp hs1 with hs3 | hs4
            · exact hst s (by simp [hs3])
            · simp only [List.mem_singleton] at hs4
              subst hs4
              exact hst s (by simp)
          · simp only [Option.toList_some, List.mem_singleton] at hs2
            subst hs2
            exact hseg
        · cases ha : absorbSegment l segment with
          | error e => rw [ha] at h; simp at h
          | ok ls2 =>
            rw [ha] at h
            refine ih _ _ _ _ _ h ?_ hrest2
            intro s hs
            rcases List.mem_append.mp hs with hs1 | hs2
            · exact hst s (by simp [hs1])
            · simp only [Option.toList_some, List.mem_singleton] at hs2
              subst hs2
              have hl : l.segmentText = concatTok l := hst l (by simp)
              unfold absorbSegment at ha
              cases hc : segment.segmentConfidence with
              | nil => rw [hc] at ha; simp at ha
              | cons w ws =>
                rw [hc] at ha
                simp only [Except.ok.injEq] at ha
                subst ha
                simp only [concatTok, List.map_append, concatTexts_append, List.map_cons]
                rw [← concatTok, ← hl, hseg]
                simp only [concatTok, hc, List.map_cons, concatTexts]
                simp [String.append_assoc]

theorem joinSpace_cons_of_ne_nil (s : String) (l : List String) (h : l ≠ []) :
    joinSpace (s :: l) = s ++ " " ++ joinSpace l := by
  cases l with
  | nil => exact absurd rfl h
  | cons a rest => rfl

theorem joinSpace_merge_adjacent (D : List String) (a b : String) (R : List String) :
    joinSpace (D ++ (a ++ " " ++ b) :: R) = joinSpace (D ++ a :: b :: R) := by
  induction D with
  | nil =>
    simp only [List.nil_append]
    cases R with
    | nil =>
      rw [joinSpace_cons_of_ne_nil a (b :: []) (by simp)]
      rfl
    | cons r rs =>
      rw [joinSpace_cons_of_ne_nil _ (r :: rs) (by simp),
        joinSpace_cons_of_ne_nil a (b :: r :: rs) (by simp),
        joinSpace_cons_of_ne_nil b (r :: rs) (by simp)]
      simp [String.append_assoc]
  | cons d D ih =>
    rw [List.cons_append, List.cons_append,
      joinSpace_cons_of_ne_nil d (D ++ (a ++ " " ++ b) :: R) (by simp),
      joinSpace_cons_of_ne_nil d (D ++ a :: b :: R) (by simp), ih]

theorem merge_loop_join (rest : List SpeechSegment) :
    ∀ done last ls ll out,
      merge_loop rest done last ls ll = .ok out →
      joinSpace (out.map (fun s => s.segmentText)) =
        joinSpace ((done ++ last.toList).map (fun s => s.segmentText) ++
          rest.map (fun s => s.segmentText)) := by
  induction rest with
  | nil =>
    intro done last ls ll out h
    simp only [merge_loop, Except.ok.injEq] at h
    rw [← h]
    simp
  | cons segment rest ih =>
    intro done last ls ll out h
    simp only [merge_loop] at h
    split at h
    · rw [ih _ _ _ _ _ h]
      simp [List.append_assoc]
    · cases last with
      | none => simp at h
      | some l =>
        simp only at h
        split at h
        · rw [ih _ _ _ _ _ h]
          simp [List.append_assoc]
        · cases ha : absorbSegment l segment with
          | error e => rw [ha] at h; simp at h
          | ok ls2 =>
            rw [ha] at h
            rw [ih _ _ _ _ _ h]
            have hls2 : ls2.segmentText = l.segmentText ++ " " ++ segment.segmentText := by
              unfold absorbSegment at ha
              cases hc : segment.segmentConfidence with
              | nil => rw [hc] at ha; simp at ha
              | cons w ws =>
                rw [hc] at ha
                simp only [Except.ok.injEq] at ha
                subst ha
                rfl
            simp only [Option.toList_some, List.map_append, List.map_cons,
              List.map_nil, hls2]
            rw [List.append_assoc, List.append_assoc]
            simp only [List.singleton_append, List.nil_append]
            exact joinSpace_merge_adjacent _ _ _ _

theorem merge_loop_token_count (rest : List SpeechSegment) :
    ∀ done last ls ll out,
      merge_loop rest done last ls ll = .ok out →
      (out.map (fun s => s.segmentConfidence.length)).sum =
        ((done ++ last.toList).map (fun s => s.segmentConfidence.length)).sum +
          (rest.map (fun s => s.segmentConfidence.length)).sum := by
  induction rest with
  | nil =>
    intro done last ls ll out h
    simp only [merge_loop, Except.ok.injEq] at h
    rw [← h]
    simp
  | cons segment rest ih =>
    intro done last ls ll out h
    simp only [merge_loop] at h
    split at h
    · rw [ih _ _ _ _ _ h]
      simp [List.sum_append]
      omega
    · cases last with
      | none => simp at h
      | some l =>
        simp only at h
        split at h
        · rw [ih _ _ _ _ _ h]
          simp [List.sum_append]
          omega
        · cases ha : absorbSegment l segment with
          | error e => rw [ha] at h; simp at h
          | ok ls2 =>
            rw [ha] at h
            rw [ih _ _ _ _ _ h]
            have hlen : ls2.segmentConfidence.length =
                l.segmentConfidence.length + segment.segmentConfidence.length := by
              unfold absorbSegment at ha
              cases hc : segment.segmentConfidence with
              | nil => rw [hc] at ha; simp at ha
              | cons w ws =>
                rw [hc] at ha
                simp only [Except.ok.injEq] at ha
                subst ha
                simp [hc]
            simp [List.sum_append, hlen]
            omega

/-- C5 counterexample: a segment's `text` field is taken verbatim from the
input turn's `text` and need not equal the concatenation of its tokens'
texts — on `xyzData` the single output segment has text `"xyz"` while its
tokens concatenate to `"Hello"`. -/
theorem claim_C5_counterexample :
    (create_turn_by_turn_segments xyzData cargsOff).map
        (List.map (fun s => (s.segmentText, concatTok s))) =
      .ok [("xyz", "Hello")] ∧
    ("xyz" : String) ≠ "Hello" := by
  constructor
  · simp only [create_turn_by_turn_segments, buildSegments, buildTurnSegment,
      processTurnItems, buildModeration, xyzData, cargsOff, merge_speaker_segments,
      concatTok, concatTexts]
    norm_num
    rw [show pyLower "en" = "en" from rfl]
    simp only [merge_loop, Option.toList_none, Option.toList_some, List.nil_append,
      List.append_nil]
    norm_num [Except.map, concatTok, concatTexts]
    simp [concatTexts]
  · simp

/-- C5 (amended): each segment's `text` is the input turn's `text` field.
Provided every turn's `text` equals the concatenation of its assembled
tokens' texts (`turnTextConsistent`), the full pipeline (assembly followed
by merging) keeps `text` equal to the concatenation of the segment's tokens,
the single-space join of the output texts equals the single-space join of
the input turns' texts, and the total token count is preserved (no token
lost or duplicated). -/
theorem claim_C5_tokens_preserved (data : BdaData) (cli_args : CliArgs)
    (out : List SpeechSegment)
    (hok : create_turn_by_turn_segments data cli_args = .ok out)
    (hcons : turnTextConsistent data = true) :
    (∀ s ∈ out, s.segmentText = concatTok s) ∧
    ∃ pre, buildSegments data cli_args 0 data.audio_segments = .ok pre ∧
      merge_speaker_segments pre = .ok out ∧
      pre.map (fun s => s.segmentText) = data.audio_segments.map (fun t => t.text) ∧
      joinSpace (out.map (fun s => s.segmentText)) =
        joinSpace (pre.map (fun s => s.segmentText)) ∧
      (out.map (fun s => s.segmentConfidence.length)).sum =
        (pre.map (fun s => s.segmentConfidence.length)).sum := by
  unfold create_turn_by_turn_segments at hok
  cases hb : buildSegments data cli_args 0 data.audio_segments with
  | error e => rw [hb] at hok; simp at hok
  | ok pre =>
    rw [hb] at hok
    obtain ⟨hmap, hmem⟩ := buildSegments_text_tokens data cli_args data.audio_segments 0 pre hb
    have hpre : ∀ s ∈ pre, s.segmentText = concatTok s := by
      intro p hp
      obtain ⟨turn, hturn, h1, h2⟩ := hmem p hp
      rw [h1, turnTextConsistent_spec data hcons turn hturn p.segmentConfidence h2]
      rfl
    refine ⟨?_, pre, rfl, hok, hmap, ?_, ?_⟩
    · exact merge_loop_text_inv pre [] none "" "" out hok (by simp) hpre
    · have := merge_loop_join pre [] none "" "" out hok
      simpa using this
    · have := merge_loop_token_count pre [] none "" "" out hok
      simpa using this

/-- Witness for the amended C5 on `consistData`: the two consistent turns
merge into one segment whose text equals its token concatenation, and the
space-join of the output texts reproduces the space-join of the input
turns' texts. -/
theorem claim_C5_tokens_preserved_witness :
    joinSpace ([consistMerged].map (fun s => s.segmentText)) =
      joinSpace (consistData.audio_segments.map (fun t => t.text)) ∧
    ∀ s ∈ [consistMerged], s.segmentText = concatTok s := by
  have hok : create_turn_by_turn_segments consistData cargsOff = .ok [consistMerged] := by
    simp only [create_turn_by_turn_segments, buildSegments, buildTurnSegment,
      processTurnItems, buildModeration, consistData, cargsOff, merge_speaker_segments]
    norm_num
    rw [show pyLower "en" = "en" from rfl]
    simp only [merge_loop, absorbSegment, mkTok, consistMerged, START_NEW_SEGMENT_DELAY,
      Option.toList_none, Option.toList_some, List.nil_append, List.append_nil]
    norm_num
    simp
  have h := claim_C5_tokens_preserved consistData cargsOff [consistMerged] hok (by rfl)
  obtain ⟨hinv, pre, hpre, -, hmap, hjoin, -⟩ := h
  exact ⟨by rw [hjoin, hmap], hinv⟩
